import Mathlib

/-!
# Verification of the skippy intrusive skip list

A shallow embedding of the core algorithms of the `skippy` crate
(`src/list/…`): the fanout parameters, the split planner, the per-level
insertion step, the per-level removal/rebalancing step, weighted-index
lookup (`subtree_get`), index computation (`SkipList::index`), size/key
propagation (`propagate_update_diff`), and the destroy-safety latch.

Conventions used throughout:
* Machine integers (`usize`) are modelled as `Nat`; the generic size
  monoid is instantiated at `Nat` (the spec requires sizes to behave as
  unsigned integers).
* A quiescent tree is modelled by the inductive `CNode`; internal nodes
  carry their cached `size`, `len` and `key` fields exactly as the Rust
  `InternalNode` does, and the quiescence invariants (cached size equals
  the sum of the children's sizes, …) appear as hypotheses.
* Fallible/panicking code paths return `Option`.

The file is organised as: all definitions first, then all lemmas and
the claim theorems.
-/

/-! ## Fanout parameters (`src/list/mod.rs`, `min_node_length` /
`max_node_length`) -/

/-- Embedding of `max_node_length`: `Fanout::VALUE.max(3)`. -/
def maxNodeLength (fanout : Nat) : Nat := max fanout 3

/-- Embedding of `min_node_length`: `(max_node_length() + 1) / 2`
(Rust integer division truncates). -/
def minNodeLength (fanout : Nat) : Nat := (maxNodeLength fanout + 1) / 2

/-! ## The split planner (`src/list/split.rs`)

The `Split` iterator walks a sibling chain; we model the chain as the
list of the children's (cached) sizes, and each emitted
`InternalNodeSetup` as the pair `(len, size)` — the chunk length and the
sum of the chunk's sizes (`start`/`end` are the corresponding sublist
boundaries and are determined by the lengths). -/

/-- Embedding of `<Split as Iterator>::next` driven to exhaustion.
`chunkLen`/`extra` are the fields of `Split`; the chain is the remaining
sibling list.  One `next` call emits a chunk of `len = chunk_len +
(extra > 0)` elements; it consumes `max len 1` nodes from the chain
(`start` is always taken) and panics — modelled as `none` — if fewer
than `len` nodes remain. -/
def splitIterGo (chunkLen : Nat) : Nat → List Nat → Option (List (Nat × Nat))
  | _, [] => some []
  | extra, c :: rest =>
    let len := chunkLen + min extra 1
    let consumed := max len 1
    if (c :: rest).length < len then none
    else
      ((len, ((c :: rest).take consumed).sum) :: ·) <$>
        splitIterGo chunkLen (extra - 1) ((c :: rest).drop consumed)
termination_by _ chain => chain.length
decreasing_by simp

/-- The chunk count computed by `split` (`split.rs` line 102):
`num_chunks = 1.max((len - 1) / min_node_length)` — Rust's `/` on
`usize` is flooring division.  `m` is `min_node_length::<L>()`. -/
def splitNumChunks (m len : Nat) : Nat := max 1 ((len - 1) / m)

/-- Embedding of `split` (`split.rs` lines 96–108): runs the iterator
with `chunk_len = len / num_chunks`, `extra = len % num_chunks` over the
sibling chain. -/
def split (m len : Nat) (chain : List Nat) : Option (List (Nat × Nat)) :=
  splitIterGo (len / splitNumChunks m len) (len % splitNumChunks m len) chain

/-! ## One level of insertion (`src/list/insert.rs`, `handle_insertion`) -/

/-- The observable effect of one `handle_insertion` level on the parent
node and on the `Insertion` record passed upward: the parent's new
`len` and `size` fields, the `count` emitted to the next level, and the
number of internal-node allocations performed. -/
structure InsLevelResult where
  parentLen : Nat
  parentSize : Nat
  emittedCount : Nat
  allocs : Nat
deriving Repr, DecidableEq

/-- Embedding of the fast-path guard of `handle_insertion`
(`insert.rs` lines 60–62):
`new_len <= max_node_length::<N::Leaf>() && insertion.root.is_none()`. -/
def useFastInsertion (fanout parentLen count : Nat) (rootOverride : Bool) :
    Bool :=
  decide (parentLen + count ≤ maxNodeLength fanout) && !rootOverride

/-- Embedding of `handle_insertion` (lines 60–92) for a level whose
parent already exists: on the fast path the parent's `len` becomes
`new_len`, `diff` is added to its size, and a zero-count update is
emitted with no allocation; otherwise the split planner runs over the
parent's (re-linked) child chain, the first chunk overwrites the parent
and each later chunk allocates a fresh internal node.  `childSizes` is
the child chain after the new nodes were linked in (length `new_len`).
`rootOverride` is `insertion.root.is_some()`. -/
def handleInsertionLevel (fanout parentLen parentSize count diff : Nat)
    (rootOverride : Bool) (childSizes : List Nat) : Option InsLevelResult :=
  let newLen := parentLen + count
  if useFastInsertion fanout parentLen count rootOverride then
    some ⟨newLen, parentSize + diff, 0, 0⟩
  else
    match split (minNodeLength fanout) newLen childSizes with
    | some (c0 :: rest) => some ⟨c0.1, c0.2, rest.length, rest.length⟩
    | _ => none

/-! ## The quiescent tree model (`src/list/node/…`, `src/list/mod.rs`)

A quiescent list is a B+-tree whose leaves are the user items.  `CNode`
models one node: a leaf carries an identifier (standing for the item's
pointer identity), its size and its optional key; an internal node
carries its cached `size`, `len` and `key` fields (the fields of the
Rust `InternalNode`) and its child sibling chain.  In the Rust code a
sibling chain is homogeneous by construction (a leaf's `next` can only
name a leaf, an internal node's only an internal node), so functions
below may dispatch on each element's kind without changing behaviour on
representable states.  The quiescence invariants of §3 of the spec
(caches consistent, children nonempty) appear as `sizeOk`/`wfNode`
hypotheses. -/

inductive CNode where
  | leaf (id sz : Nat) (key : Option Nat)
  | internal (size len : Nat) (key : Option Nat) (children : List CNode)
deriving Repr

/-- Embedding of `NodeRef::size()`: the leaf's size, or an internal
node's cached `size` field. -/
def nsize : CNode → Nat
  | .leaf _ sz _ => sz
  | .internal sz _ _ _ => sz

mutual

/-- The items below a node, left to right, as `(id, size)` pairs. -/
def leavesOf : CNode → List (Nat × Nat)
  | .leaf i sz _ => [(i, sz)]
  | .internal _ _ _ cs => chainLeaves cs

/-- The items below a sibling chain, left to right. -/
def chainLeaves : List CNode → List (Nat × Nat)
  | [] => []
  | c :: cs => leavesOf c ++ chainLeaves cs

end

mutual

/-- Structural well-formedness of a quiescent node: every internal node
has a nonempty child chain (`down` is never `None` and `len ≥ 1` while
the tree is quiescent). -/
def wfNode : CNode → Bool
  | .leaf _ _ _ => true
  | .internal _ _ _ cs => !cs.isEmpty && wfChain cs

/-- Structural well-formedness of every node of a sibling chain. -/
def wfChain : List CNode → Bool
  | [] => true
  | c :: cs => wfNode c && wfChain cs

end

mutual

/-- Size-cache consistency (spec invariant 3): every internal node's
cached `size` equals the sum of its children's sizes. -/
def sizeOk : CNode → Bool
  | .leaf _ _ _ => true
  | .internal sz _ _ cs => (sz == (cs.map nsize).sum) && sizeOkChain cs

/-- Size-cache consistency for every node of a sibling chain. -/
def sizeOkChain : List CNode → Bool
  | [] => true
  | c :: cs => sizeOk c && sizeOkChain cs

end

/-! ## Weighted-index lookup (`SkipList::subtree_get`, `mod.rs`
lines 389–435, and `get_with_cmp`, lines 342–348)

The comparison closure is instantiated at `cmp s = compare s target`
for a `Nat` target (this is what `get(&index)` passes), so
`ord.is_le() ↔ s ≤ target`, `ord.is_eq() ↔ s = target`. -/

/-- The `Down::Leaf` arm of `subtree_get`: scan a leaf sibling chain,
accumulating sizes.  `acc` is the `size` accumulator; on `ord.is_le()`
advance to the next sibling if any; at the last sibling return it only
if the index matches exactly and the size did not move
(`ord.is_eq() && size == new_size`), the zero-size-final-item rule. -/
def leafScan (target : Nat) : List (Nat × Nat) → Nat → Option (Nat × Nat)
  | [], _ => none
  | (id, sz) :: rest, acc =>
    let ns := acc + sz
    if ns ≤ target then
      if rest.isEmpty then
        if ns = target ∧ acc = ns then some (id, sz) else none
      else leafScan target rest ns
    else some (id, sz)

/-- Embedding of `SkipList::subtree_get`: walk the sibling chain
starting at `first_child`, accumulating cached sizes; on a leaf chain
behave as `leafScan`; on an internal chain descend into the child list
of the first node whose accumulated size passes the target (or of the
last node on an exact match), carrying the accumulator from before that
node as the new offset. -/
def subtreeGet (target : Nat) : List CNode → Nat → Option (Nat × Nat)
  | [], _ => none
  | .leaf id sz _ :: rest, acc =>
    let ns := acc + sz
    if ns ≤ target then
      if rest.isEmpty then
        if ns = target ∧ acc = ns then some (id, sz) else none
      else subtreeGet target rest ns
    else some (id, sz)
  | .internal s _ _ cs :: rest, acc =>
    let ns := acc + s
    if ns ≤ target then
      if rest.isEmpty then
        if ns = target then subtreeGet target cs acc else none
      else subtreeGet target rest ns
    else subtreeGet target cs acc
termination_by chain => sizeOf chain
decreasing_by all_goals (simp; try omega)

/-- Embedding of `SkipList::get` / `get_with_cmp`: `subtree_get` from
the root with offset `Default::default() = 0`; an empty list returns
`None`. -/
def skipGet (root : Option CNode) (target : Nat) : Option (Nat × Nat) :=
  match root with
  | none => none
  | some t => subtreeGet target [t] 0

/-! ## Index of an item (`SkipList::index`, `mod.rs` lines 356–387) -/

mutual

/-- Locate the leaf addressed by a path of child indices
(root-to-leaf); returns its `(id, size)`. -/
def leafAt : CNode → List Nat → Option (Nat × Nat)
  | .leaf id sz _, [] => some (id, sz)
  | .internal _ _ _ cs, i :: p => leafAtChain cs i p
  | _, _ => none

/-- `leafAt` within the `i`-th node of a sibling chain. -/
def leafAtChain : List CNode → Nat → List Nat → Option (Nat × Nat)
  | [], _, _ => none
  | c :: _, 0, p => leafAt c p
  | _ :: cs, i + 1, p => leafAtChain cs i p

end

mutual

/-- The accumulator built by `SkipList::index`'s `add_siblings` loops:
starting from the item's own size, the sizes of all later siblings are
added at every level of the ascent.  The Rust code walks bottom-up via
`next` pointers; on a quiescent tree this equals the top-down recursion
along the path, which is what we write. -/
def indexAcc : CNode → List Nat → Option Nat
  | .leaf _ sz _, [] => some sz
  | .internal _ _ _ cs, i :: p => indexAccChain cs i p
  | _, _ => none

/-- `indexAcc` within a sibling chain: at the addressed child, add the
cached sizes of all of its later siblings. -/
def indexAccChain : List CNode → Nat → List Nat → Option Nat
  | [], _, _ => none
  | c :: cs, 0, p => (indexAcc c p).map (· + (cs.map nsize).sum)
  | _ :: cs, i + 1, p => indexAccChain cs i p

end

/-- Embedding of `SkipList::index`: the final `add_siblings` call fails
at the root (its `next` is `None`) and the function returns
`root.size().sub(index)`; the single-leaf early return (`Default` = 0)
coincides with `size - size`. -/
def skipIndex (t : CNode) (p : List Nat) : Option Nat :=
  (indexAcc t p).map (fun s => nsize t - s)

mutual

/-- The items strictly before the leaf addressed by a path, left to
right (used to state what "the weighted sum of sizes from the first
item up to `L`" denotes). -/
def leavesBeforePath : CNode → List Nat → Option (List (Nat × Nat))
  | .leaf _ _ _, [] => some []
  | .internal _ _ _ cs, i :: p => leavesBeforeChain cs i p
  | _, _ => none

/-- `leavesBeforePath` within a sibling chain. -/
def leavesBeforeChain : List CNode → Nat → List Nat → Option (List (Nat × Nat))
  | [], _, _ => none
  | c :: _, 0, p => leavesBeforePath c p
  | c :: cs, i + 1, p => (leavesBeforeChain cs i p).map (leavesOf c ++ ·)

end

/-! ## One level of removal rebalancing (`src/list/remove.rs`,
`handle_removal`, lines 104–171)

The underflow handling acts on the parent node (after the removed child
was spliced out and `parent.len` decremented) and one neighbor.  A node
at this level is modelled by its child chain (each child contributing
its size and its `key()`), plus the cached `size`, `len` and `key`
fields.  The splices via `set_next`/`set_down` become list surgery:
`left.down.take left.len` is the chain reachable from `left.down`
through `left.len` positions, which under quiescence
(`len = down.length`) is the whole chain. -/

/-- A child of the current level, as seen through `NodeRef`:
its cached size and its `key()`. -/
structure SChild where
  size : Nat
  key : Option Nat
deriving Repr, DecidableEq

/-- An internal node at the current removal level: its child chain and
its cached `size`, `len`, `key` fields. -/
structure SNode where
  down : List SChild
  size : Nat
  len : Nat
  key : Option Nat
deriving Repr, DecidableEq

/-- Embedding of `RemovalKind` (`remove.rs` lines 26–32). -/
inductive RemovalKind where
  | remove
  | update
deriving Repr, DecidableEq

/-- Embedding of the right-neighbor branch of `handle_removal`
(lines 116–142).  Returns `(parent', right', kind)` where `kind` is the
`Removal` passed upward for `parent`.  `unwrap` failures (empty chains)
are `none`. -/
def rebalanceRight (minF : Nat) (parent right : SNode) :
    Option (SNode × SNode × RemovalKind) :=
  match right.down with
  | [] => none
  | rFirst :: rRest =>
    if minF < right.len then
      match rRest with
      | [] => none
      | rSecond :: _ =>
        some (⟨parent.down ++ [rFirst], parent.size + rFirst.size,
                parent.len + 1, parent.key⟩,
              ⟨rRest, right.size - rFirst.size, right.len - 1, rSecond.key⟩,
              .update)
    else
      some (⟨[], 0, 0, parent.key⟩,
            ⟨parent.down ++ right.down, right.size + parent.size,
              right.len + parent.len, right.key⟩,
            .remove)

/-- Embedding of the left-neighbor branch of `handle_removal`
(lines 144–170).  The code navigates to `left_last` via the cached
`left.len` (`get_nth_sibling(left_first, left_len - 2)`), so the model
indexes the chain with `left.len` as well; the `unwrap`s require
`left.len ≥ 2` and a long-enough chain, else `none`. -/
def rebalanceLeft (minF : Nat) (parent left : SNode) :
    Option (SNode × SNode × RemovalKind) :=
  if left.len < 2 then none
  else
    match left.down.get? (left.len - 1) with
    | none => none
    | some lastC =>
      if minF < left.len then
        some (⟨lastC :: parent.down, parent.size + lastC.size,
                parent.len + 1, lastC.key⟩,
              ⟨left.down.take (left.len - 1), left.size - lastC.size,
                left.len - 1, left.key⟩,
              .update)
      else
        some (⟨[], 0, 0, parent.key⟩,
              ⟨left.down.take left.len ++ parent.down,
                left.size + parent.size, left.len + parent.len, left.key⟩,
              .remove)

/-- What `handle_removal` sees when it inspects `parent.next()`
(lines 108–114): `None` (parent is the root), a right sibling, or a
parent link — in which case the code takes
`get_previous(parent).unwrap().into_sibling().unwrap()`, the left
sibling, which the context supplies. -/
inductive ParentNext where
  | root
  | sibling (right : SNode)
  | parentLink (leftSibling : SNode)
deriving Repr, DecidableEq

/-- Embedding of `handle_removal` from the post-splice length check
onward (lines 104–171): if the decremented `parent.len` still meets the
minimum, recurse upward with `Update`; if the parent is the root,
likewise; otherwise rebalance with the right sibling if there is one,
else with the left sibling.  Returns
`(parent', rebalancing neighbor if any, kind passed upward)`. -/
def handleRemovalUnderflow (minF : Nat) (parent : SNode) (pn : ParentNext) :
    Option (SNode × Option SNode × RemovalKind) :=
  if minF ≤ parent.len then some (parent, none, .update)
  else
    match pn with
    | .root => some (parent, none, .update)
    | .sibling right =>
      (rebalanceRight minF parent right).map (fun r => (r.1, some r.2.1, r.2.2))
    | .parentLink leftSibling =>
      (rebalanceLeft minF parent leftSibling).map
        (fun r => (r.1, some r.2.1, r.2.2))

/-! ## Size/key propagation and `update`
(`SkipList::update`, `mod.rs` lines 887–895, and
`propagate_update_diff`, lines 68–100) -/

mutual

/-- The mutator's effect on the item at the end of the path: `update`'s
closure may change the item's size and key in place. -/
def setLeaf : CNode → List Nat → Nat → Option Nat → CNode
  | .leaf id _ _, [], newSz, newKey => .leaf id newSz newKey
  | .internal s l k cs, i :: p, newSz, newKey =>
    .internal s l k (setLeafChain cs i p newSz newKey)
  | t, _, _, _ => t

/-- `setLeaf` inside the `i`-th node of a sibling chain. -/
def setLeafChain : List CNode → Nat → List Nat → Nat → Option Nat → List CNode
  | [], _, _, _, _ => []
  | c :: cs, 0, p, newSz, newKey => setLeaf c p newSz newKey :: cs
  | c :: cs, i + 1, p, newSz, newKey => c :: setLeafChain cs i p newSz newKey

end

mutual

/-- Embedding of `propagate_update_diff`: every strict ancestor of the
item on the root path has `new_size` added to and `old_size` subtracted
from its cached size (when they differ); the optional `key` survives
the walk only while the ancestor is reached through leftmost children
(`key.filter(|_| index == 0)` at every level, evaluated bottom-up),
and each surviving level's cached key is overwritten.  The Rust loop
walks bottom-up via `get_parent_info`; on a quiescent tree this equals
the top-down recursion along the path (an ancestor's key is overwritten
exactly when every child index below it on the path is 0), which is
what we write.  The early `break` when nothing was updated only skips
no-op writes and does not change the resulting state. -/
def propagateUpdateDiff (key : Option Nat) (oldS newS : Nat) :
    CNode → List Nat → CNode
  | .internal sz len k cs, i :: p =>
    let sz2 := if oldS = newS then sz else sz + newS - oldS
    let k2 := match key with
      | some kk => if i = 0 ∧ p.all (· = 0) then some kk else k
      | none => k
    .internal sz2 len k2 (propagateChain key oldS newS cs i p)
  | t, _ => t

/-- `propagateUpdateDiff` inside the `i`-th node of a sibling chain. -/
def propagateChain (key : Option Nat) (oldS newS : Nat) :
    List CNode → Nat → List Nat → List CNode
  | [], _, _ => []
  | c :: cs, 0, p => propagateUpdateDiff key oldS newS c p :: cs
  | c :: cs, i + 1, p => c :: propagateChain key oldS newS cs i p

end

/-- Embedding of `SkipList::update(item, update)`: snapshot
`old_size = item.size()`, run the mutator (which may change the item's
size to `newSz` and its key to `newKey`), snapshot
`new_size = item.size()`, then call
`propagate_update_diff(item, None, old_size, new_size)` — note the
`None` key argument. -/
def skipUpdate (t : CNode) (p : List Nat) (newSz : Nat) (newKey : Option Nat) :
    CNode :=
  match leafAt t p with
  | none => t
  | some (_, oldSz) =>
    propagateUpdateDiff none oldSz newSz (setLeaf t p newSz newKey) p

mutual

/-- The cached `key` fields of all internal nodes, in preorder. -/
def internalKeys : CNode → List (Option Nat)
  | .leaf _ _ _ => []
  | .internal _ _ k cs => k :: internalKeysChain cs

/-- `internalKeys` over a sibling chain. -/
def internalKeysChain : List CNode → List (Option Nat)
  | [] => []
  | c :: cs => internalKeys c ++ internalKeysChain cs

end

/-! ## The destroy-safety latch (`src/list/destroy_safety.rs`,
`src/list/destroy.rs`, and the guard use in `mod.rs`)

`CAN_SAFELY_DESTROY` is a thread-local (without `std`: process-global)
`bool` initialised to `true`.  Its only writer is
`set_cannot_safely_destroy`, which stores `false`; it is invoked solely
by `Drop for SetUnsafeOnDrop`.  The only place a `SetUnsafeOnDrop`
guard is created is `SkipList::insert_after_from` (`mod.rs` line 628),
which `mem::forget`s it on clean exit; `SkipList::remove` creates no
guard.  An operation on any list of the thread is therefore one of the
events below, and the latch evolves by `dsStep`. -/

/-- One structural operation on some list of the thread, together with
whether it panicked mid-mutation. -/
inductive DsEvent where
  | insertOk
  | insertPanic
  | removeOk
  | removePanic
deriving Repr, DecidableEq

/-- How one operation changes the latch: a panic that unwinds through
`insert_after_from`'s live `SetUnsafeOnDrop` guard runs
`set_cannot_safely_destroy`, storing `false`; a clean insertion
`mem::forget`s the guard (no write); `remove` has no guard, so neither
a clean nor a panicking removal writes the latch. -/
def dsStep (flag : Bool) : DsEvent → Bool
  | .insertOk => flag
  | .insertPanic => false
  | .removeOk => flag
  | .removePanic => flag

/-- The latch after a sequence of operations, starting from its
initialiser `true`. -/
def dsRun (events : List DsEvent) : Bool := events.foldl dsStep true

/-- Embedding of `destroy_node_list` (`destroy.rs` lines 65–80) at the
level of which nodes get deallocated: if `can_safely_destroy()` is
`false` the function returns immediately and nothing is freed;
otherwise it walks the whole removed list and deallocates every node. -/
def destroyNodeList (flag : Bool) (nodes : List Nat) : List Nat :=
  if flag then nodes else []

/-! # Lemmas and claim theorems -/

/-! ## Claim C5: the minimum fill bound -/

/-- C5, counterexample.  The spec's formula `min_fanout =
⌈(max_fanout + 1) / 2⌉` (in `Nat`, `(max_fanout + 2) / 2`) disagrees
with the code's computation `(max_node_length + 1) / 2` at configured
fanout 4: the code yields 2, the ceiling formula yields 3. -/
theorem c5_counterexample :
    minNodeLength 4 = 2 ∧ (maxNodeLength 4 + 2) / 2 = 3 ∧
      minNodeLength 4 ≠ (maxNodeLength 4 + 2) / 2 := by
  decide

/-- C5, amended.  For every configured fanout, the code's
`max_node_length` is `max(configured, 3)` and its `min_node_length` is
`⌊(max_fanout + 1) / 2⌋ = ⌈max_fanout / 2⌉` (characterised by
`max ≤ 2·min ≤ max + 1`), not `⌈(max_fanout + 1) / 2⌉`; with configured
fanout 4 the minimum fill is 2, as the spec's scenarios state. -/
theorem c5_min_fill_bound (f : Nat) :
    maxNodeLength f = max f 3 ∧
      maxNodeLength f ≤ 2 * minNodeLength f ∧
      2 * minNodeLength f ≤ maxNodeLength f + 1 ∧
      minNodeLength 4 = 2 ∧ maxNodeLength 4 = 4 := by
  refine ⟨rfl, ?_, ?_, by decide, by decide⟩ <;>
    · simp only [minNodeLength, maxNodeLength]
      omega

/-! ## Claim C3: the fast insertion path -/

/-- C3.  At each insertion level with `new_len = parent.len + count`,
the insert engine takes the fast path exactly when
`new_len ≤ max_fanout` (equality included) and no root override is
pending; on that path the parent's `len` becomes `new_len`, the
insertion's size diff is added to the parent's size, and a zero-count
update is emitted for the next level, with no split and no
allocation. -/
theorem c3_fast_insertion_path (f pl ps count diff : Nat)
    (rootOverride : Bool) (childSizes : List Nat) :
    (useFastInsertion f pl count rootOverride = true ↔
      pl + count ≤ maxNodeLength f ∧ rootOverride = false) ∧
    (pl + count ≤ maxNodeLength f → rootOverride = false →
      handleInsertionLevel f pl ps count diff rootOverride childSizes =
        some ⟨pl + count, ps + diff, 0, 0⟩) := by
  constructor
  · simp [useFastInsertion]
  · intro h hro
    simp [handleInsertionLevel, useFastInsertion, h, hro]

/-- C3, witness: fanout 4, a parent of length 3 receiving one new child
(`new_len = 4 = max_fanout`, boundary case) takes the fast path. -/
theorem c3_fast_insertion_path_witness :
    (4 : Nat) ≤ maxNodeLength 4 ∧
      handleInsertionLevel 4 3 10 1 7 false [2, 3, 2, 3] =
        some ⟨4, 17, 0, 0⟩ :=
  ⟨by decide, (c3_fast_insertion_path 4 3 10 1 7 false [2, 3, 2, 3]).2
    (by decide) rfl⟩

/-! ## Claim C4: the split planner's chunk layout -/

/-- C4, counterexample.  The code computes `num_chunks =
max(1, ⌊(L − 1) / min_fanout⌋)` with flooring division, not the spec's
`max(1, ⌈(L − 1) / min_fanout⌉)`.  With configured fanout 4
(`min_fanout = 2`) and a chain of length `L = 6 > max_fanout`, the code
emits 2 chunks of length 3, while the claimed formula demands
`⌈5/2⌉ = 3` chunks. -/
theorem c4_counterexample :
    split (minNodeLength 4) 6 [1, 1, 1, 1, 1, 1] = some [(3, 3), (3, 3)] ∧
      (split (minNodeLength 4) 6 [1, 1, 1, 1, 1, 1]).map List.length ≠
        some (max 1 ((6 - 1 + minNodeLength 4 - 1) / minNodeLength 4)) := by
  have h : split (minNodeLength 4) 6 [1, 1, 1, 1, 1, 1] =
      some [(3, 3), (3, 3)] := by
    simp [split, splitNumChunks, splitIterGo, minNodeLength, maxNodeLength]
  exact ⟨h, by rw [h]; decide⟩

/-- Driving the `Split` iterator with `chunk_len = base` and the given
`extra` over a chain of length `base * k + extra` (with `extra ≤ k`)
emits exactly `k` chunks: the first `extra` of length `base + 1`, the
rest of length `base`. -/
theorem splitIterGo_shape (base : Nat) (hbase : 1 ≤ base) :
    ∀ (k : Nat) (extra : Nat) (chain : List Nat), extra ≤ k →
      chain.length = base * k + extra →
      ∃ chunks, splitIterGo base extra chain = some chunks ∧
        chunks.map Prod.fst =
          List.replicate extra (base + 1) ++ List.replicate (k - extra) base := by
  intro k
  induction k with
  | zero =>
    intro extra chain hek hlen
    interval_cases extra
    have hnil : chain = [] := List.eq_nil_of_length_eq_zero (by omega)
    subst hnil
    exact ⟨[], by simp [splitIterGo]⟩
  | succ k ih =>
    intro extra chain hek hlen
    have hpos : 0 < base * (k + 1) := Nat.mul_pos (by omega) (by omega)
    cases chain with
    | nil =>
      exfalso
      simp only [List.length_nil] at hlen
      omega
    | cons c rest =>
      have hlen' : rest.length + 1 = base * (k + 1) + extra := by
        simpa using hlen
      have hbk : base * (k + 1) = base * k + base := by ring
      rw [splitIterGo]
      rcases Nat.eq_zero_or_pos extra with hex | hex
      · subst hex
        have hmin : min 0 1 = 0 := rfl
        have hge : ¬ (c :: rest).length < base + min 0 1 := by
          simp only [hmin, List.length_cons]
          omega
        rw [if_neg hge]
        have hmax : max (base + min 0 1) 1 = base := by
          simp only [hmin]
          omega
        rw [hmax]
        have hdrop : ((c :: rest).drop base).length = base * k := by
          simp only [List.length_drop, List.length_cons]
          omega
        obtain ⟨chunks, hc, hmap⟩ := ih 0 ((c :: rest).drop base) (by omega)
          hdrop
        refine ⟨(base + min 0 1, ((c :: rest).take base).sum) :: chunks, ?_, ?_⟩
        · rw [hc]; rfl
        · simp [hmap, hmin, List.replicate_succ]
      · obtain ⟨e, rfl⟩ : ∃ e, extra = e + 1 := ⟨extra - 1, by omega⟩
        have hmin : min (e + 1) 1 = 1 := by omega
        have hge : ¬ (c :: rest).length < base + min (e + 1) 1 := by
          simp only [hmin, List.length_cons]
          omega
        rw [if_neg hge]
        have hmax : max (base + min (e + 1) 1) 1 = base + 1 := by
          simp only [hmin]
          omega
        rw [hmax]
        have hdrop : ((c :: rest).drop (base + 1)).length = base * k + e := by
          simp only [List.length_drop, List.length_cons]
          omega
        obtain ⟨chunks, hc, hmap⟩ :=
          ih e ((c :: rest).drop (base + 1)) (by omega) hdrop
        refine ⟨(base + min (e + 1) 1, ((c :: rest).take (base + 1)).sum)
          :: chunks, ?_, ?_⟩
        · simp only [Nat.add_sub_cancel, hc]; rfl
        · simp [hmap, hmin, List.replicate_succ]

/-- Arithmetic facts about the split planner's parameters: for a chain
of length `L > max_fanout`, the chunk count is positive, `extra < num`,
and — except when `max_fanout` is odd and `L = max_fanout + 1` — every
chunk length (`base` or `base + 1`) lies within
`[min_fanout, max_fanout]`. -/
theorem split_arith (f L : Nat) (hL : maxNodeLength f < L)
    (hpar : maxNodeLength f % 2 = 0 ∨ L ≠ maxNodeLength f + 1) :
    1 ≤ splitNumChunks (minNodeLength f) L ∧
      L % splitNumChunks (minNodeLength f) L <
        splitNumChunks (minNodeLength f) L ∧
      minNodeLength f ≤ L / splitNumChunks (minNodeLength f) L ∧
      L / splitNumChunks (minNodeLength f) L ≤ maxNodeLength f ∧
      (0 < L % splitNumChunks (minNodeLength f) L →
        L / splitNumChunks (minNodeLength f) L + 1 ≤ maxNodeLength f) := by
  set M := maxNodeLength f with hM
  set m := minNodeLength f with hm
  have hM3 : 3 ≤ M := le_max_right f 3
  have hm2 : 2 ≤ m ∧ 2 * m ≤ M + 1 ∧ M ≤ 2 * m := by
    rw [hm, minNodeLength, ← hM]
    omega
  obtain ⟨hm2, hmM1, hMm⟩ := hm2
  have hm0 : 0 < m := by omega
  have hLm : m ≤ L - 1 := by omega
  have hq1 : 1 ≤ (L - 1) / m := (Nat.one_le_div_iff hm0).mpr hLm
  have hnum : splitNumChunks m L = (L - 1) / m := by
    rw [splitNumChunks]
    omega
  set num := (L - 1) / m with hnumdef
  rw [hnum]
  have hnum0 : 0 < num := hq1
  have hdm : m * num + (L - 1) % m = L - 1 := Nat.div_add_mod (L - 1) m
  have hmod : (L - 1) % m < m := Nat.mod_lt _ hm0
  have hA : m * num ≤ L - 1 := Nat.le.intro hdm
  have hB : L ≤ m * num + m := by omega
  have hdm2 : num * (L / num) + L % num = L := Nat.div_add_mod L num
  have hx : L % num < num := Nat.mod_lt _ hnum0
  set base := L / num with hbasedef
  have hbase_mul : base * num ≤ L := Nat.div_mul_le_self L num
  have hbase_ge : m ≤ base := by
    rw [hbasedef]
    exact (Nat.le_div_iff_mul_le hnum0).mpr (by omega)
  have hnum_eq1 : num = 1 → L ≤ 2 * m := by
    intro h1
    rw [h1] at hdm
    omega
  have hparity : M = 2 * m - 1 ∨ M = 2 * m := by omega
  have hbase_le : base ≤ M := by
    by_contra hcon
    have hMb : M + 1 ≤ base := by omega
    have h1 : (M + 1) * num ≤ base * num := Nat.mul_le_mul_right num hMb
    have h2 : (2 * m) * num ≤ (M + 1) * num := Nat.mul_le_mul_right num hmM1
    have h3 : 2 * m * num = m * num + m * num := by ring
    have h4 : m * num ≤ m := by omega
    have h5 : m * 1 ≤ m * num := Nat.mul_le_mul_left m hnum0
    have h6 : num ≤ 1 := Nat.le_of_mul_le_mul_left (by omega) hm0
    have h7 : num = 1 := by omega
    have h8 := hnum_eq1 h7
    rcases hpar with hpe | hpl
    · omega
    · omega
  refine ⟨hnum0, hx, hbase_ge, hbase_le, ?_⟩
  intro hxpos
  by_contra hcon
  have hMb : M ≤ base := by omega
  have hnum2 : 2 ≤ num := by
    rcases Nat.lt_or_ge num 2 with h | h
    · exfalso
      have h7 : num = 1 := by omega
      rw [h7] at hxpos
      simp [Nat.mod_one] at hxpos
    · exact h
  have h1 : M * num ≤ base * num := Nat.mul_le_mul_right num hMb
  have hdm2x : base * num + L % num = L := by
    rw [Nat.mul_comm base num]
    exact hdm2
  have h2 : base * num < L := by omega
  have h3 : M * num < m * num + m := by omega
  rcases hparity with hodd | heven
  · have h4 : M * num + num = 2 * m * num := by
      rw [hodd]
      have : (2 * m - 1) * num + num = (2 * m - 1 + 1) * num := by ring
      rw [this]
      congr 1
      omega
    have h5 : 2 * m * num = m * num + m * num := by ring
    have h6 : m * num < m + num := by omega
    obtain ⟨a, ha⟩ : ∃ a, m = a + 2 := ⟨m - 2, by omega⟩
    obtain ⟨b, hb⟩ : ∃ b, num = b + 2 := ⟨num - 2, by omega⟩
    rw [ha, hb] at h6
    ring_nf at h6
    omega
  · have h4 : M * num = m * num + m * num := by rw [heven]; ring
    have h5 : m * 1 ≤ m * num := Nat.mul_le_mul_left m hnum0
    omega

/-- C4, amended.  For a sibling chain of length `L > max_fanout`, the
planner emits exactly `num_chunks = max(1, ⌊(L − 1) / min_fanout⌋)`
chunks (flooring division — not the ceiling the spec states); each chunk
has `L / num_chunks` elements except that the first `L mod num_chunks`
chunks have one extra; and — except in the case of an odd `max_fanout`
with `L = max_fanout + 1`, where the code emits a single oversized
chunk — every emitted chunk length lies in `[min_fanout, max_fanout]`. -/
theorem c4_split_chunk_layout (f L : Nat) (chain : List Nat)
    (hlen : chain.length = L) (hL : maxNodeLength f < L)
    (hpar : maxNodeLength f % 2 = 0 ∨ L ≠ maxNodeLength f + 1) :
    ∃ chunks, split (minNodeLength f) L chain = some chunks ∧
      chunks.length = splitNumChunks (minNodeLength f) L ∧
      chunks.map Prod.fst =
        List.replicate (L % splitNumChunks (minNodeLength f) L)
            (L / splitNumChunks (minNodeLength f) L + 1) ++
          List.replicate (splitNumChunks (minNodeLength f) L -
              L % splitNumChunks (minNodeLength f) L)
            (L / splitNumChunks (minNodeLength f) L) ∧
      ∀ p ∈ chunks, minNodeLength f ≤ p.1 ∧ p.1 ≤ maxNodeLength f := by
  obtain ⟨hnum0, hx, hbase_ge, hbase_le, hbase1_le⟩ := split_arith f L hL hpar
  set m := minNodeLength f with hm
  set num := splitNumChunks m L with hnumdef
  set base := L / num with hbasedef
  set extra := L % num with hextradef
  have hbase0 : 1 ≤ base := by
    have : 2 ≤ m := by
      rw [hm, minNodeLength]
      have : 3 ≤ maxNodeLength f := le_max_right f 3
      omega
    omega
  have hchain : chain.length = base * num + extra := by
    rw [hlen, hbasedef, hextradef]
    rw [Nat.mul_comm]
    exact (Nat.div_add_mod L num).symm
  obtain ⟨chunks, hc, hmap⟩ :=
    splitIterGo_shape base hbase0 num extra chain (by omega) hchain
  refine ⟨chunks, hc, ?_, hmap, ?_⟩
  · have := congrArg List.length hmap
    simp only [List.length_map, List.length_append, List.length_replicate]
      at this
    omega
  · intro p hp
    have hfst : p.1 ∈ chunks.map Prod.fst := List.mem_map_of_mem Prod.fst hp
    rw [hmap] at hfst
    rcases List.mem_append.mp hfst with hmem | hmem
    · have heq := List.eq_of_mem_replicate hmem
      have h0 : 0 < extra := by
        rcases Nat.eq_zero_or_pos extra with h0 | h0
        · rw [h0] at hmem
          simp at hmem
        · exact h0
      rw [heq]
      exact ⟨by omega, hbase1_le h0⟩
    · have heq := List.eq_of_mem_replicate hmem
      rw [heq]
      exact ⟨hbase_ge, hbase_le⟩

/-- C4, witness: fanout 4, a chain of six unit-size children. -/
theorem c4_split_chunk_layout_witness :
    maxNodeLength 4 < 6 ∧
      (∃ chunks, split (minNodeLength 4) 6 [1, 1, 1, 1, 1, 1] = some chunks ∧
        chunks.length = splitNumChunks (minNodeLength 4) 6 ∧
        chunks.map Prod.fst =
          List.replicate (6 % splitNumChunks (minNodeLength 4) 6)
              (6 / splitNumChunks (minNodeLength 4) 6 + 1) ++
            List.replicate (splitNumChunks (minNodeLength 4) 6 -
                6 % splitNumChunks (minNodeLength 4) 6)
              (6 / splitNumChunks (minNodeLength 4) 6) ∧
        ∀ p ∈ chunks, minNodeLength 4 ≤ p.1 ∧ p.1 ≤ maxNodeLength 4) :=
  ⟨by decide, c4_split_chunk_layout 4 6 [1, 1, 1, 1, 1, 1] rfl (by decide)
    (Or.inl (by decide))⟩

/-! ## Leaf-chain scanning lemmas -/

/-- A list with a nonempty right part is nonempty. -/
theorem append_isEmpty_false {α : Type} (xs ys : List α) (h : ys ≠ []) :
    (xs ++ ys).isEmpty = false := by
  cases xs <;> cases ys <;> simp_all

/-- While the accumulated size stays within the target, `leafScan`
marches through a whole block and continues in the remainder. -/
theorem leafScan_advance (target : Nat) (xs : List (Nat × Nat)) :
    ∀ (ys : List (Nat × Nat)) (acc : Nat), ys ≠ [] →
      acc + (xs.map Prod.snd).sum ≤ target →
      leafScan target (xs ++ ys) acc =
        leafScan target ys (acc + (xs.map Prod.snd).sum) := by
  induction xs with
  | nil => intro ys acc _ _; simp
  | cons x xs ih =>
    intro ys acc hys hle
    obtain ⟨id, sz⟩ := x
    simp only [List.map_cons, List.sum_cons, List.cons_append] at hle ⊢
    rw [leafScan, if_pos (show acc + sz ≤ target by omega),
      append_isEmpty_false xs ys hys]
    simp only [Bool.false_eq_true, if_false]
    rw [ih ys (acc + sz) hys (by omega)]
    congr 1
    omega

/-- Once the accumulated size passes the target inside a block, the
suffix after the block is irrelevant. -/
theorem leafScan_stop (target : Nat) (xs : List (Nat × Nat)) :
    ∀ (ys : List (Nat × Nat)) (acc : Nat), xs ≠ [] →
      target < acc + (xs.map Prod.snd).sum →
      leafScan target (xs ++ ys) acc = leafScan target xs acc := by
  induction xs with
  | nil => intro ys acc h _; exact absurd rfl h
  | cons x xs ih =>
    intro ys acc _ hgt
    obtain ⟨id, sz⟩ := x
    simp only [List.map_cons, List.sum_cons, List.cons_append] at hgt ⊢
    rcases Nat.lt_or_ge target (acc + sz) with hlt | hge
    · rw [leafScan, leafScan, if_neg (by omega), if_neg (by omega)]
    · cases xs with
      | nil =>
        exfalso
        simp only [List.map_nil, List.sum_nil] at hgt
        omega
      | cons r rs =>
        rw [leafScan, if_pos hge]
        conv_rhs => rw [leafScan, if_pos hge]
        simp only [List.cons_append, List.isEmpty_cons, Bool.false_eq_true,
          if_false]
        exact ih ys (acc + sz) (by simp) (by simp at hgt ⊢; omega)

/-- If the whole chain's accumulated size stays strictly below the
target, the scan falls off the end and returns nothing. -/
theorem leafScan_under (target : Nat) (xs : List (Nat × Nat)) :
    ∀ acc : Nat, xs ≠ [] → acc + (xs.map Prod.snd).sum < target →
      leafScan target xs acc = none := by
  induction xs with
  | nil => intro acc h _; exact absurd rfl h
  | cons x xs ih =>
    intro acc _ hlt
    obtain ⟨id, sz⟩ := x
    simp only [List.map_cons, List.sum_cons] at hlt
    rw [leafScan, if_pos (by omega)]
    cases xs with
    | nil =>
      simp only [List.isEmpty_nil, if_true]
      rw [if_neg (by simp at hlt; omega)]
    | cons r rs =>
      simp only [List.isEmpty_cons, Bool.false_eq_true, if_false]
      exact ih (acc + sz) (by simp) (by omega)

/-- When the target equals the accumulated size of the whole chain, the
scan reaches the last element and returns it exactly when its size is
zero (the zero-size-final-item rule). -/
theorem leafScan_exact (target : Nat) (xs : List (Nat × Nat)) :
    ∀ acc : Nat, xs ≠ [] → acc + (xs.map Prod.snd).sum = target →
      ∃ lid lsz, xs.getLast? = some (lid, lsz) ∧
        leafScan target xs acc =
          if lsz = 0 then some (lid, lsz) else none := by
  induction xs with
  | nil => intro acc h _; exact absurd rfl h
  | cons x xs ih =>
    intro acc _ heq
    obtain ⟨id, sz⟩ := x
    simp only [List.map_cons, List.sum_cons] at heq
    cases xs with
    | nil =>
      refine ⟨id, sz, rfl, ?_⟩
      simp only [List.map_nil, List.sum_nil] at heq
      rw [leafScan, if_pos (by omega)]
      simp only [List.isEmpty_nil, if_true]
      rcases Nat.eq_zero_or_pos sz with h0 | h0
      · rw [if_pos (by omega), if_pos (by omega)]
      · rw [if_neg (by omega), if_neg (by omega)]
    | cons r rs =>
      obtain ⟨lid, lsz, hlast, hscan⟩ := ih (acc + sz) (by simp) (by omega)
      refine ⟨lid, lsz, ?_, ?_⟩
      · rw [List.getLast?_cons_cons]
        exact hlast
      · rw [leafScan, if_pos (by simp at heq ⊢; omega)]
        simpa using hscan

/-- The scan finds the addressed element when the target is the sum of
the sizes strictly before it and its own size is positive. -/
theorem leafScan_hit (target : Nat) (before : List (Nat × Nat)) :
    ∀ (id sz : Nat) (after : List (Nat × Nat)) (acc : Nat), 0 < sz →
      target = acc + (before.map Prod.snd).sum →
      leafScan target (before ++ (id, sz) :: after) acc = some (id, sz) := by
  induction before with
  | nil =>
    intro id sz after acc hsz htgt
    simp only [List.map_nil, List.sum_nil, Nat.add_zero] at htgt
    rw [List.nil_append, leafScan, if_neg (by omega)]
  | cons b bs ih =>
    intro id sz after acc hsz htgt
    obtain ⟨bid, bsz⟩ := b
    simp only [List.map_cons, List.sum_cons] at htgt
    rw [List.cons_append, leafScan, if_pos (by omega),
      append_isEmpty_false bs ((id, sz) :: after) (by simp)]
    simp only [Bool.false_eq_true, if_false]
    exact ih id sz after (acc + bsz) hsz (by omega)

/-! ## Quiescent-tree structure lemmas -/

mutual

/-- Every well-formed node has at least one item below it. -/
theorem leavesOf_ne_nil (t : CNode) (h : wfNode t = true) :
    leavesOf t ≠ [] := by
  cases t with
  | leaf i sz k => simp [leavesOf]
  | internal sz len k cs =>
    simp only [wfNode, Bool.and_eq_true, Bool.not_eq_true',
      List.isEmpty_eq_false] at h
    simpa [leavesOf] using chainLeaves_ne_nil cs h.1 h.2

/-- A nonempty well-formed sibling chain has at least one item. -/
theorem chainLeaves_ne_nil (cs : List CNode) (hne : cs ≠ [])
    (h : wfChain cs = true) : chainLeaves cs ≠ [] := by
  cases cs with
  | nil => exact absurd rfl hne
  | cons c cs =>
    simp only [wfChain, Bool.and_eq_true] at h
    have := leavesOf_ne_nil c h.1
    simp only [chainLeaves, ne_eq, List.append_eq_nil]
    intro hc
    exact this hc.1

end

mutual

/-- Under size-cache consistency, a node's cached size is the sum of
the sizes of the items below it. -/
theorem nsize_eq_leaves_sum (t : CNode) (h : sizeOk t = true) :
    nsize t = ((leavesOf t).map Prod.snd).sum := by
  cases t with
  | leaf i sz k => simp [nsize, leavesOf]
  | internal sz len k cs =>
    simp only [sizeOk, Bool.and_eq_true, beq_iff_eq] at h
    simp only [nsize, leavesOf]
    rw [h.1]
    exact chain_nsize_eq_leaves_sum cs h.2

/-- Under size-cache consistency, the cached sizes of a sibling chain
sum to the sizes of the items below the chain. -/
theorem chain_nsize_eq_leaves_sum (cs : List CNode)
    (h : sizeOkChain cs = true) :
    (cs.map nsize).sum = ((chainLeaves cs).map Prod.snd).sum := by
  cases cs with
  | nil => simp [chainLeaves]
  | cons c cs =>
    simp only [sizeOkChain, Bool.and_eq_true] at h
    simp only [List.map_cons, List.sum_cons, chainLeaves, List.map_append,
      List.sum_append]
    rw [nsize_eq_leaves_sum c h.1, chain_nsize_eq_leaves_sum cs h.2]

end

/-- Flattening: on a well-formed, size-consistent sibling chain,
`subtree_get` computes exactly the scan of the flattened item
sequence.  This is the content of the descent: at every internal level
the accumulated cached sizes agree with the accumulated item sizes. -/
theorem subtreeGet_flatten (target : Nat) :
    ∀ (chain : List CNode) (acc : Nat), wfChain chain = true →
      sizeOkChain chain = true →
      subtreeGet target chain acc =
        leafScan target (chainLeaves chain) acc := by
  intro chain acc
  induction chain, acc using subtreeGet.induct target
  case case1 => simp [subtreeGet, chainLeaves, leafScan]
  case case2 id sz key rest acc ns hle hemp hex =>
    intro _ _
    have hrest : rest = [] := List.isEmpty_iff.mp hemp
    subst hrest
    simp only [chainLeaves, leavesOf, List.append_nil]
    rw [subtreeGet, leafScan, if_pos hle, if_pos hle]
    simp [hex.1, hex.2]
  case case3 id sz key rest acc ns hle hemp hex =>
    intro _ _
    have hrest : rest = [] := List.isEmpty_iff.mp hemp
    subst hrest
    simp only [chainLeaves, leavesOf, List.append_nil]
    rw [subtreeGet, leafScan, if_pos hle, if_pos hle]
    simp only [List.isEmpty_nil, if_true, if_neg hex]
  case case4 id sz key rest acc ns hle hemp ih =>
    intro hwf hok
    simp only [wfChain, Bool.and_eq_true] at hwf
    simp only [sizeOkChain, Bool.and_eq_true] at hok
    have hrest : rest ≠ [] := by
      intro h
      rw [h] at hemp
      simp at hemp
    have hcl : chainLeaves rest ≠ [] := chainLeaves_ne_nil rest hrest hwf.2
    rw [subtreeGet, if_pos hle, if_neg hemp]
    simp only [chainLeaves, leavesOf, List.singleton_append]
    rw [leafScan, if_pos hle,
      if_neg (by simpa [List.isEmpty_iff] using hcl)]
    exact ih hwf.2 hok.2
  case case5 id sz key rest acc ns hle =>
    intro _ _
    rw [subtreeGet, if_neg hle]
    simp only [chainLeaves, leavesOf, List.singleton_append]
    rw [leafScan, if_neg hle]
  case case6 s len key cs rest acc ns hle hemp hex ih =>
    intro hwf hok
    have hrest : rest = [] := List.isEmpty_iff.mp hemp
    subst hrest
    simp only [wfChain, wfNode, Bool.and_eq_true, Bool.not_eq_true',
      List.isEmpty_eq_false] at hwf
    simp only [sizeOkChain, sizeOk, Bool.and_eq_true, beq_iff_eq] at hok
    rw [subtreeGet, if_pos hle]
    simp only [List.isEmpty_nil, if_true, if_pos hex]
    simp only [chainLeaves, leavesOf, List.append_nil]
    exact ih hwf.1.2 hok.1.2
  case case7 s len key cs rest acc ns hle hemp hex =>
    intro hwf hok
    have hrest : rest = [] := List.isEmpty_iff.mp hemp
    subst hrest
    simp only [wfChain, wfNode, Bool.and_eq_true, Bool.not_eq_true',
      List.isEmpty_eq_false] at hwf
    simp only [sizeOkChain, sizeOk, Bool.and_eq_true, beq_iff_eq] at hok
    rw [subtreeGet, if_pos hle]
    simp only [List.isEmpty_nil, if_true, if_neg hex]
    simp only [chainLeaves, leavesOf, List.append_nil]
    have hsum : ((chainLeaves cs).map Prod.snd).sum = s := by
      rw [← chain_nsize_eq_leaves_sum cs hok.1.2, hok.1.1]
    rw [leafScan_under target (chainLeaves cs) acc
      (chainLeaves_ne_nil cs hwf.1.1 hwf.1.2) (by rw [hsum]; omega)]
  case case8 s len key cs rest acc ns hle hemp ih =>
    intro hwf hok
    simp only [wfChain, wfNode, Bool.and_eq_true, Bool.not_eq_true',
      List.isEmpty_eq_false] at hwf
    simp only [sizeOkChain, sizeOk, Bool.and_eq_true, beq_iff_eq] at hok
    have hrest : rest ≠ [] := by
      intro h
      rw [h] at hemp
      simp at hemp
    have hcl : chainLeaves rest ≠ [] := chainLeaves_ne_nil rest hrest hwf.2
    rw [subtreeGet, if_pos hle, if_neg hemp]
    simp only [chainLeaves, leavesOf]
    have hsum : ((chainLeaves cs).map Prod.snd).sum = s := by
      rw [← chain_nsize_eq_leaves_sum cs hok.1.2, hok.1.1]
    rw [leafScan_advance target (chainLeaves cs) (chainLeaves rest) acc hcl
      (by rw [hsum]; omega), hsum]
    exact ih hwf.2 hok.2
  case case9 s len key cs rest acc ns hle ih =>
    intro hwf hok
    simp only [wfChain, wfNode, Bool.and_eq_true, Bool.not_eq_true',
      List.isEmpty_eq_false] at hwf
    simp only [sizeOkChain, sizeOk, Bool.and_eq_true, beq_iff_eq] at hok
    rw [subtreeGet, if_neg hle]
    simp only [chainLeaves, leavesOf]
    have hsum : ((chainLeaves cs).map Prod.snd).sum = s := by
      rw [← chain_nsize_eq_leaves_sum cs hok.1.2, hok.1.1]
    rw [leafScan_stop target (chainLeaves cs) (chainLeaves rest) acc
      (chainLeaves_ne_nil cs hwf.1.1 hwf.1.2) (by rw [hsum]; omega)]
    exact ih hwf.1.2 hok.1.2

/-! ## Path decomposition for `index` -/

/-- Chain version of `leafAt_decomp`, parameterised by the node-level
statement at the shorter path. -/
theorem leafAt_decomp_chain (p : List Nat)
    (IH : ∀ (t : CNode) (id sz : Nat), sizeOk t = true →
      leafAt t p = some (id, sz) →
      ∃ before after, leavesBeforePath t p = some before ∧
        leavesOf t = before ++ (id, sz) :: after ∧
        indexAcc t p = some (sz + (after.map Prod.snd).sum)) :
    ∀ (i : Nat) (cs : List CNode) (id sz : Nat), sizeOkChain cs = true →
      leafAtChain cs i p = some (id, sz) →
      ∃ before after, leavesBeforeChain cs i p = some before ∧
        chainLeaves cs = before ++ (id, sz) :: after ∧
        indexAccChain cs i p = some (sz + (after.map Prod.snd).sum) := by
  intro i
  induction i with
  | zero =>
    intro cs id sz hok hat
    cases cs with
    | nil => simp [leafAtChain] at hat
    | cons c cs =>
      simp only [leafAtChain] at hat
      simp only [sizeOkChain, Bool.and_eq_true] at hok
      obtain ⟨before, after, hb, hl, hi⟩ := IH c id sz hok.1 hat
      refine ⟨before, after ++ chainLeaves cs, ?_, ?_, ?_⟩
      · simpa [leavesBeforeChain] using hb
      · simp [chainLeaves, hl]
      · simp only [indexAccChain, hi, Option.map_some']
        rw [chain_nsize_eq_leaves_sum cs hok.2]
        simp only [List.map_append, List.sum_append, Option.some_inj]
        omega
  | succ i ih =>
    intro cs id sz hok hat
    cases cs with
    | nil => simp [leafAtChain] at hat
    | cons c cs =>
      simp only [leafAtChain] at hat
      simp only [sizeOkChain, Bool.and_eq_true] at hok
      obtain ⟨before, after, hb, hl, hi⟩ := ih cs id sz hok.2 hat
      refine ⟨leavesOf c ++ before, after, ?_, ?_, ?_⟩
      · simp [leavesBeforeChain, hb]
      · simp [chainLeaves, hl]
      · simpa [indexAccChain] using hi

/-- Decomposition: the leaf found by a valid path splits the flattened
item sequence as `before ++ item :: after`, `leavesBeforePath` computes
`before`, and the accumulator of `SkipList::index` computes the item's
size plus the sizes after it. -/
theorem leafAt_decomp (p : List Nat) :
    ∀ (t : CNode) (id sz : Nat), sizeOk t = true →
      leafAt t p = some (id, sz) →
      ∃ before after, leavesBeforePath t p = some before ∧
        leavesOf t = before ++ (id, sz) :: after ∧
        indexAcc t p = some (sz + (after.map Prod.snd).sum) := by
  induction p with
  | nil =>
    intro t id sz hok hat
    cases t with
    | leaf i s k =>
      simp only [leafAt, Option.some_inj, Prod.mk.injEq] at hat
      obtain ⟨rfl, rfl⟩ := hat
      exact ⟨[], [], rfl, by simp [leavesOf], by simp [indexAcc]⟩
    | internal s l k cs => simp [leafAt] at hat
  | cons i p ih =>
    intro t id sz hok hat
    cases t with
    | leaf i' s' k' => simp [leafAt] at hat
    | internal s l k cs =>
      simp only [leafAt] at hat
      simp only [sizeOk, Bool.and_eq_true, beq_iff_eq] at hok
      obtain ⟨before, after, hb, hl, hi⟩ :=
        leafAt_decomp_chain p ih i cs id sz hok.2 hat
      exact ⟨before, after, by simpa [leavesBeforePath] using hb,
        by simpa [leavesOf] using hl, by simpa [indexAcc] using hi⟩

/-! ## Facade-level lookup lemmas -/

/-- Lookup at or past the total size: `get` returns nothing, except
that a target exactly equal to the total size returns the final item
when that item's size is zero. -/
theorem skipGet_ge_size (t : CNode) (target : Nat) (hwf : wfNode t = true)
    (hok : sizeOk t = true) (hover : nsize t ≤ target) :
    ∃ lid lsz, (leavesOf t).getLast? = some (lid, lsz) ∧
      skipGet (some t) target =
        if target = nsize t ∧ lsz = 0 then some (lid, lsz) else none := by
  have hwfc : wfChain [t] = true := by simp [wfChain, hwf]
  have hokc : sizeOkChain [t] = true := by simp [sizeOkChain, hok]
  have hflat : skipGet (some t) target = leafScan target (leavesOf t) 0 := by
    show subtreeGet target [t] 0 = _
    rw [subtreeGet_flatten target [t] 0 hwfc hokc]
    simp [chainLeaves]
  have hne := leavesOf_ne_nil t hwf
  have hsum : ((leavesOf t).map Prod.snd).sum = nsize t :=
    (nsize_eq_leaves_sum t hok).symm
  rcases Nat.lt_or_ge (nsize t) target with hlt | hge
  · have hunder : leafScan target (leavesOf t) 0 = none :=
      leafScan_under target (leavesOf t) 0 hne (by omega)
    cases hlast : (leavesOf t).getLast? with
    | none => exact absurd (List.getLast?_eq_none_iff.mp hlast) hne
    | some pair =>
      exact ⟨pair.1, pair.2, by simp [hlast], by
        rw [hflat, hunder, if_neg (by omega)]⟩
  · have heq : target = nsize t := by omega
    obtain ⟨lid, lsz, hlast, hscan⟩ :=
      leafScan_exact target (leavesOf t) 0 hne (by omega)
    refine ⟨lid, lsz, hlast, ?_⟩
    rw [hflat, hscan]
    rcases Nat.eq_zero_or_pos lsz with h0 | h0
    · rw [if_pos h0, if_pos ⟨heq, h0⟩]
    · rw [if_neg (by omega), if_neg (by omega)]

/-! ## Claim C1: round-trip positioning -/

/-- C1.  On a quiescent list, for every leaf `L` with positive size,
`index_of(L)` equals the weighted sum of the sizes of the items
strictly before `L` (the sum "from the first item of the list up to
`L`"), and `get_by_index(index_of(L))` returns `L` itself. -/
theorem c1_round_trip_positioning (t : CNode) (p : List Nat) (id sz : Nat)
    (hwf : wfNode t = true) (hok : sizeOk t = true)
    (hleaf : leafAt t p = some (id, sz)) (hpos : 0 < sz) :
    ∃ before, leavesBeforePath t p = some before ∧
      skipIndex t p = some ((before.map Prod.snd).sum) ∧
      skipGet (some t) ((before.map Prod.snd).sum) = some (id, sz) := by
  obtain ⟨before, after, hb, hl, hi⟩ := leafAt_decomp p t id sz hok hleaf
  have htot : nsize t =
      (before.map Prod.snd).sum + (sz + (after.map Prod.snd).sum) := by
    rw [nsize_eq_leaves_sum t hok, hl]
    simp only [List.map_append, List.sum_append, List.map_cons,
      List.sum_cons]
  refine ⟨before, hb, ?_, ?_⟩
  · rw [skipIndex, hi, Option.map_some']
    congr 1
    omega
  · have hwfc : wfChain [t] = true := by simp [wfChain, hwf]
    have hokc : sizeOkChain [t] = true := by simp [sizeOkChain, hok]
    show subtreeGet ((before.map Prod.snd).sum) [t] 0 = some (id, sz)
    rw [subtreeGet_flatten _ [t] 0 hwfc hokc]
    simp only [chainLeaves, List.append_nil]
    rw [hl]
    exact leafScan_hit _ before id sz after 0 hpos (by omega)

/-- C1, witness: a two-level tree with items of sizes 1 and 2; the
second item sits at weighted index 1. -/
theorem c1_round_trip_positioning_witness :
    wfNode (CNode.internal 3 2 none
        [CNode.leaf 0 1 none, CNode.leaf 1 2 none]) = true ∧
      sizeOk (CNode.internal 3 2 none
        [CNode.leaf 0 1 none, CNode.leaf 1 2 none]) = true ∧
      leafAt (CNode.internal 3 2 none
        [CNode.leaf 0 1 none, CNode.leaf 1 2 none]) [1] = some (1, 2) ∧
      (∃ before, leavesBeforePath (CNode.internal 3 2 none
          [CNode.leaf 0 1 none, CNode.leaf 1 2 none]) [1] = some before ∧
        skipIndex (CNode.internal 3 2 none
          [CNode.leaf 0 1 none, CNode.leaf 1 2 none]) [1] =
            some ((before.map Prod.snd).sum) ∧
        skipGet (some (CNode.internal 3 2 none
          [CNode.leaf 0 1 none, CNode.leaf 1 2 none]))
            ((before.map Prod.snd).sum) = some (1, 2)) :=
  ⟨by decide, by decide, by decide,
    c1_round_trip_positioning _ [1] 1 2 (by decide) (by decide) (by decide)
      (by decide)⟩

/-! ## Claim C6: lookup at or past the total size -/

/-- C6.  For every quiescent list, weighted-index lookup returns none
for any target at or past the total size, with exactly one exception:
when the target equals `size()` (the comparator reports equality at the
last element) and the final item has size zero, that final item is
returned. -/
theorem c6_over_bound_lookup (t : CNode) (target : Nat)
    (hwf : wfNode t = true) (hok : sizeOk t = true)
    (hover : nsize t ≤ target) :
    ∃ lid lsz, (leavesOf t).getLast? = some (lid, lsz) ∧
      skipGet (some t) target =
        if target = nsize t ∧ lsz = 0 then some (lid, lsz) else none :=
  skipGet_ge_size t target hwf hok hover

/-- C6, witness: a list of total size 3; lookups at 3 (no zero-size
final item) and beyond return none via the theorem's `if`. -/
theorem c6_over_bound_lookup_witness :
    wfNode (CNode.internal 3 2 none
        [CNode.leaf 0 1 none, CNode.leaf 1 2 none]) = true ∧
      nsize (CNode.internal 3 2 none
        [CNode.leaf 0 1 none, CNode.leaf 1 2 none]) ≤ 5 ∧
      (∃ lid lsz, (leavesOf (CNode.internal 3 2 none
          [CNode.leaf 0 1 none, CNode.leaf 1 2 none])).getLast? =
            some (lid, lsz) ∧
        skipGet (some (CNode.internal 3 2 none
          [CNode.leaf 0 1 none, CNode.leaf 1 2 none])) 5 =
          if 5 = nsize (CNode.internal 3 2 none
              [CNode.leaf 0 1 none, CNode.leaf 1 2 none]) ∧ lsz = 0
          then some (lid, lsz) else none) :=
  ⟨by decide, by decide,
    c6_over_bound_lookup _ 5 (by decide) (by decide) (by decide)⟩

/-! ## Claim C9: lookup at index 0 on all-zero-size lists -/

/-- C9, counterexample.  In a non-empty all-zero-size list with more
than one item, `get_by_index(0)` does not return the first item: the
scan walks to the end and the exact-equal-and-zero-final-item rule
returns the last item.  Concretely, with two zero-size leaves the
lookup returns leaf 1, not the first leaf 0. -/
theorem c9_counterexample :
    wfNode (CNode.internal 0 2 none
        [CNode.leaf 0 0 none, CNode.leaf 1 0 none]) = true ∧
      sizeOk (CNode.internal 0 2 none
        [CNode.leaf 0 0 none, CNode.leaf 1 0 none]) = true ∧
      (leavesOf (CNode.internal 0 2 none
        [CNode.leaf 0 0 none, CNode.leaf 1 0 none])).head? = some (0, 0) ∧
      skipGet (some (CNode.internal 0 2 none
        [CNode.leaf 0 0 none, CNode.leaf 1 0 none])) 0 = some (1, 0) ∧
      skipGet (some (CNode.internal 0 2 none
          [CNode.leaf 0 0 none, CNode.leaf 1 0 none])) 0 ≠
        (leavesOf (CNode.internal 0 2 none
          [CNode.leaf 0 0 none, CNode.leaf 1 0 none])).head? := by
  have h : skipGet (some (CNode.internal 0 2 none
      [CNode.leaf 0 0 none, CNode.leaf 1 0 none])) 0 = some (1, 0) := by
    show subtreeGet 0 [CNode.internal 0 2 none
      [CNode.leaf 0 0 none, CNode.leaf 1 0 none]] 0 = some (1, 0)
    simp [subtreeGet]
  refine ⟨by decide, by decide, by decide, h, ?_⟩
  rw [h]
  decide

/-- Elements of a zero-sum list of naturals are zero. -/
theorem list_sum_zero_mem {l : List Nat} {x : Nat} (h : l.sum = 0)
    (hx : x ∈ l) : x = 0 := by
  induction l with
  | nil => simp at hx
  | cons a l ih =>
    simp only [List.sum_cons, Nat.add_eq_zero] at h
    rcases List.mem_cons.mp hx with rfl | hm
    · exact h.1
    · exact ih h.2 hm

/-- C9, amended.  For every list with `size() = 0` (equivalently, every
non-empty list in which every item has size zero), `get_by_index(0)`
returns the *last* item of the list, via the
exact-equal-and-zero-final-item rule; on the empty list it returns
none. -/
theorem c9_all_zero_lookup (t : CNode) (hwf : wfNode t = true)
    (hok : sizeOk t = true) (hzero : nsize t = 0) :
    ∃ lid, (leavesOf t).getLast? = some (lid, 0) ∧
      skipGet (some t) 0 = some (lid, 0) ∧
      skipGet none 0 = none := by
  obtain ⟨lid, lsz, hlast, hscan⟩ :=
    skipGet_ge_size t 0 hwf hok (by omega)
  have hlsz : lsz = 0 := by
    have hsum : ((leavesOf t).map Prod.snd).sum = 0 := by
      rw [← nsize_eq_leaves_sum t hok, hzero]
    have hmem : (lid, lsz) ∈ leavesOf t :=
      List.mem_of_mem_getLast? hlast
    exact list_sum_zero_mem hsum (List.mem_map_of_mem Prod.snd hmem)
  subst hlsz
  exact ⟨lid, hlast, by rw [hscan, if_pos ⟨hzero.symm, rfl⟩], rfl⟩

/-- C9 (amended), witness: a three-leaf all-zero list; lookup at 0
returns the third leaf. -/
theorem c9_all_zero_lookup_witness :
    wfNode (CNode.internal 0 3 none [CNode.leaf 0 0 none,
        CNode.leaf 1 0 none, CNode.leaf 2 0 none]) = true ∧
      nsize (CNode.internal 0 3 none [CNode.leaf 0 0 none,
        CNode.leaf 1 0 none, CNode.leaf 2 0 none]) = 0 ∧
      (∃ lid, (leavesOf (CNode.internal 0 3 none [CNode.leaf 0 0 none,
          CNode.leaf 1 0 none, CNode.leaf 2 0 none])).getLast? =
            some (lid, 0) ∧
        skipGet (some (CNode.internal 0 3 none [CNode.leaf 0 0 none,
          CNode.leaf 1 0 none, CNode.leaf 2 0 none])) 0 = some (lid, 0) ∧
        skipGet none 0 = none) :=
  ⟨by decide, by decide,
    c9_all_zero_lookup _ (by decide) (by decide) (by decide)⟩

/-! ## Claim C7: `update` and size/key propagation -/

/-- Chain version of `skipUpdate_props`, parameterised by the
node-level statement at the shorter path. -/
theorem skipUpdate_props_chain (p : List Nat) (newSz : Nat)
    (newKey : Option Nat)
    (IH : ∀ (t : CNode) (id oldSz : Nat), sizeOk t = true →
      leafAt t p = some (id, oldSz) →
      sizeOk (propagateUpdateDiff none oldSz newSz
          (setLeaf t p newSz newKey) p) = true ∧
        nsize (propagateUpdateDiff none oldSz newSz
          (setLeaf t p newSz newKey) p) + oldSz = nsize t + newSz ∧
        internalKeys (propagateUpdateDiff none oldSz newSz
          (setLeaf t p newSz newKey) p) = internalKeys t) :
    ∀ (i : Nat) (cs : List CNode) (id oldSz : Nat),
      sizeOkChain cs = true → leafAtChain cs i p = some (id, oldSz) →
      sizeOkChain (propagateChain none oldSz newSz
          (setLeafChain cs i p newSz newKey) i p) = true ∧
        ((propagateChain none oldSz newSz
            (setLeafChain cs i p newSz newKey) i p).map nsize).sum + oldSz =
          (cs.map nsize).sum + newSz ∧
        internalKeysChain (propagateChain none oldSz newSz
          (setLeafChain cs i p newSz newKey) i p) = internalKeysChain cs := by
  intro i
  induction i with
  | zero =>
    intro cs id oldSz hok hat
    cases cs with
    | nil => simp [leafAtChain] at hat
    | cons c cs =>
      simp only [leafAtChain] at hat
      simp only [sizeOkChain, Bool.and_eq_true] at hok
      obtain ⟨h1, h2, h3⟩ := IH c id oldSz hok.1 hat
      simp only [setLeafChain, propagateChain, sizeOkChain, List.map_cons,
        List.sum_cons, internalKeysChain, Bool.and_eq_true]
      refine ⟨⟨h1, hok.2⟩, by omega, by rw [h3]⟩
  | succ i ih =>
    intro cs id oldSz hok hat
    cases cs with
    | nil => simp [leafAtChain] at hat
    | cons c cs =>
      simp only [leafAtChain] at hat
      simp only [sizeOkChain, Bool.and_eq_true] at hok
      obtain ⟨h1, h2, h3⟩ := ih cs id oldSz hok.2 hat
      simp only [setLeafChain, propagateChain, sizeOkChain, List.map_cons,
        List.sum_cons, internalKeysChain, Bool.and_eq_true]
      refine ⟨⟨hok.1, h1⟩, by omega, by rw [h3]⟩

/-- After `update`'s mutation and propagation, the size caches of every
ancestor are again consistent, the root's cached size moved by the
item's size difference, and no internal node's cached key changed. -/
theorem skipUpdate_props (p : List Nat) (newSz : Nat) (newKey : Option Nat) :
    ∀ (t : CNode) (id oldSz : Nat), sizeOk t = true →
      leafAt t p = some (id, oldSz) →
      sizeOk (propagateUpdateDiff none oldSz newSz
          (setLeaf t p newSz newKey) p) = true ∧
        nsize (propagateUpdateDiff none oldSz newSz
          (setLeaf t p newSz newKey) p) + oldSz = nsize t + newSz ∧
        internalKeys (propagateUpdateDiff none oldSz newSz
          (setLeaf t p newSz newKey) p) = internalKeys t := by
  induction p with
  | nil =>
    intro t id oldSz hok hat
    cases t with
    | leaf i s k =>
      simp only [leafAt, Option.some_inj, Prod.mk.injEq] at hat
      obtain ⟨rfl, rfl⟩ := hat
      simp only [setLeaf, propagateUpdateDiff, sizeOk, nsize, internalKeys]
      exact ⟨trivial, by omega, trivial⟩
    | internal s l k cs => simp [leafAt] at hat
  | cons i p ih =>
    intro t id oldSz hok hat
    cases t with
    | leaf i' s' k' => simp [leafAt] at hat
    | internal s l k cs =>
      simp only [leafAt] at hat
      simp only [sizeOk, Bool.and_eq_true, beq_iff_eq] at hok
      obtain ⟨h1, h2, h3⟩ :=
        skipUpdate_props_chain p newSz newKey ih i cs id oldSz hok.2 hat
      simp only [setLeaf, propagateUpdateDiff, sizeOk, nsize, internalKeys,
        Bool.and_eq_true, beq_iff_eq]
      refine ⟨⟨?_, h1⟩, ?_, by rw [h3]⟩
      · rcases Nat.decEq oldSz newSz with hne | heq
        · rw [if_neg hne]
          omega
        · rw [if_pos heq]
          omega
      · rcases Nat.decEq oldSz newSz with hne | heq
        · rw [if_neg hne]
          omega
        · rw [if_pos heq]
          omega

/-- C7, counterexample.  `SkipList::update` passes `None` as the key
argument of `propagate_update_diff`, so even when keys are stored and
the item is the leftmost leaf of an ancestor, the ancestor's cached key
is *not* updated to the item's new key.  Concretely: the leftmost item
(key 10) of a two-leaf keyed tree is mutated to key 99 and size 4; the
root's cached key remains 10. -/
theorem c7_counterexample :
    leafAt (CNode.internal 5 2 (some 10)
        [CNode.leaf 0 2 (some 10), CNode.leaf 1 3 (some 20)]) [0] =
      some (0, 2) ∧
    internalKeys (CNode.internal 5 2 (some 10)
        [CNode.leaf 0 2 (some 10), CNode.leaf 1 3 (some 20)]) = [some 10] ∧
    internalKeys (skipUpdate (CNode.internal 5 2 (some 10)
        [CNode.leaf 0 2 (some 10), CNode.leaf 1 3 (some 20)]) [0] 4
        (some 99)) = [some 10] ∧
    (some 10 : Option Nat) ≠ some 99 := by
  refine ⟨by decide, by decide, ?_, by decide⟩
  decide

/-- C7, amended.  `update(item, mutator)` runs the mutator between a
pre- and post-snapshot of the item's size and propagates the size
difference to every ancestor on the root path (all ancestor size caches
are consistent again afterwards, and the root's cached size moves by
exactly the difference); it performs *no* key propagation — every
internal node's cached key is unchanged, even when the item is the
leftmost leaf descendant of an ancestor (key propagation happens in
`replace`, not `update`). -/
theorem c7_update_propagation (t : CNode) (p : List Nat)
    (id oldSz newSz : Nat) (newKey : Option Nat)
    (hok : sizeOk t = true) (hleaf : leafAt t p = some (id, oldSz)) :
    sizeOk (skipUpdate t p newSz newKey) = true ∧
      nsize (skipUpdate t p newSz newKey) + oldSz = nsize t + newSz ∧
      internalKeys (skipUpdate t p newSz newKey) = internalKeys t := by
  have h := skipUpdate_props p newSz newKey t id oldSz hok hleaf
  rw [skipUpdate, hleaf]
  exact h

/-- C7 (amended), witness: updating the leftmost item of a keyed
two-leaf tree from size 2 to size 4. -/
theorem c7_update_propagation_witness :
    sizeOk (CNode.internal 5 2 (some 10)
        [CNode.leaf 0 2 (some 10), CNode.leaf 1 3 (some 20)]) = true ∧
      leafAt (CNode.internal 5 2 (some 10)
        [CNode.leaf 0 2 (some 10), CNode.leaf 1 3 (some 20)]) [0] =
          some (0, 2) ∧
      (sizeOk (skipUpdate (CNode.internal 5 2 (some 10)
          [CNode.leaf 0 2 (some 10), CNode.leaf 1 3 (some 20)]) [0] 4
          (some 99)) = true ∧
        nsize (skipUpdate (CNode.internal 5 2 (some 10)
            [CNode.leaf 0 2 (some 10), CNode.leaf 1 3 (some 20)]) [0] 4
            (some 99)) + 2 =
          nsize (CNode.internal 5 2 (some 10)
            [CNode.leaf 0 2 (some 10), CNode.leaf 1 3 (some 20)]) + 4 ∧
        internalKeys (skipUpdate (CNode.internal 5 2 (some 10)
            [CNode.leaf 0 2 (some 10), CNode.leaf 1 3 (some 20)]) [0] 4
            (some 99)) =
          internalKeys (CNode.internal 5 2 (some 10)
            [CNode.leaf 0 2 (some 10), CNode.leaf 1 3 (some 20)])) :=
  ⟨by decide, by decide,
    c7_update_propagation _ [0] 0 2 4 (some 99) (by decide) (by decide)⟩

/-! ## Claim C2: removal underflow handling -/

/-- C2.  After a child is spliced out, if the parent still meets the
minimum fill, or is the root, only an `Update` propagates; otherwise
the rebalancing neighbor `N` is the right sibling if the parent has
one, else the left sibling reached via `get_previous`.  One child is
transferred from `N` to the parent — preserving order across the pair
and updating both nodes' `len` and `size`, and the `key` of whichever
node's leftmost child changed — exactly when `N.len > min_fanout`;
otherwise the parent's child chain is spliced into `N`'s (prepended for
a right neighbor, appended for a left one), `parent.size` and
`parent.len` are transferred into `N`, and the parent (not `N`) is the
node marked `Remove` for deallocation.  The quiescence hypotheses state
that the cached `len`/`size` fields match the actual chains. -/
theorem c2_remove_underflow_rebalance (minF : Nat)
    (parent rightN leftN : SNode)
    (hpq : parent.len = parent.down.length)
    (hrq : rightN.len = rightN.down.length)
    (hrs : rightN.size = (rightN.down.map SChild.size).sum)
    (hlq : leftN.len = leftN.down.length)
    (hls : leftN.size = (leftN.down.map SChild.size).sum)
    (hrmin : 2 ≤ rightN.len) (hlmin : 2 ≤ leftN.len)
    (hunder : parent.len < minF) :
    (∀ parent2 : SNode, minF ≤ parent2.len →
      handleRemovalUnderflow minF parent2 (.sibling rightN) =
        some (parent2, none, .update)) ∧
    handleRemovalUnderflow minF parent .root =
      some (parent, none, .update) ∧
    (minF < rightN.len → ∃ c p' n',
      rightN.down.head? = some c ∧
      handleRemovalUnderflow minF parent (.sibling rightN) =
        some (p', some n', .update) ∧
      p'.down ++ n'.down = parent.down ++ rightN.down ∧
      p'.down = parent.down ++ [c] ∧ n'.down = rightN.down.tail ∧
      p'.len = parent.len + 1 ∧ n'.len = rightN.len - 1 ∧
      p'.size = parent.size + c.size ∧ n'.size + c.size = rightN.size ∧
      p'.key = parent.key ∧
      (∀ c2 ∈ n'.down.head?, n'.key = c2.key)) ∧
    (rightN.len ≤ minF → ∃ p' n',
      handleRemovalUnderflow minF parent (.sibling rightN) =
        some (p', some n', .remove) ∧
      n'.down = parent.down ++ rightN.down ∧
      n'.size = rightN.size + parent.size ∧
      n'.len = rightN.len + parent.len ∧ n'.key = rightN.key ∧
      p'.down = [] ∧ p'.size = 0 ∧ p'.len = 0) ∧
    (minF < leftN.len → ∃ c p' n',
      leftN.down.get? (leftN.len - 1) = some c ∧
      handleRemovalUnderflow minF parent (.parentLink leftN) =
        some (p', some n', .update) ∧
      n'.down ++ p'.down = leftN.down ++ parent.down ∧
      p'.down = c :: parent.down ∧
      p'.len = parent.len + 1 ∧ n'.len = leftN.len - 1 ∧
      p'.size = parent.size + c.size ∧ n'.size + c.size = leftN.size ∧
      p'.key = c.key ∧ n'.key = leftN.key) ∧
    (leftN.len ≤ minF → ∃ p' n',
      handleRemovalUnderflow minF parent (.parentLink leftN) =
        some (p', some n', .remove) ∧
      n'.down = leftN.down ++ parent.down ∧
      n'.size = leftN.size + parent.size ∧
      n'.len = leftN.len + parent.len ∧ n'.key = leftN.key ∧
      p'.down = [] ∧ p'.size = 0 ∧ p'.len = 0) := by
  obtain ⟨rf, rrest, hrdown⟩ : ∃ rf rrest, rightN.down = rf :: rrest := by
    cases h : rightN.down with
    | nil => rw [h] at hrq; simp at hrq; omega
    | cons a l => exact ⟨a, l, rfl⟩
  obtain ⟨linit, llast, hldown⟩ :
      ∃ linit llast, leftN.down = linit ++ [llast] := by
    rcases List.eq_nil_or_concat leftN.down with h | ⟨l, a, h⟩
    · rw [h] at hlq; simp at hlq; omega
    · rw [List.concat_eq_append] at h
      exact ⟨l, a, h⟩
  have hlinit : linit.length = leftN.len - 1 := by
    rw [hldown] at hlq
    simp at hlq
    omega
  have hget : leftN.down.get? (leftN.len - 1) = some llast := by
    rw [hldown, ← hlinit]
    exact List.get?_concat_length linit llast
  refine ⟨?_, ?_, ?_, ?_, ?_, ?_⟩
  · intro parent2 hge
    rw [handleRemovalUnderflow, if_pos hge]
  · rw [handleRemovalUnderflow, if_neg (by omega)]
  · intro hgt
    have hlen2 : 2 ≤ rrest.length + 1 := by
      rw [hrdown] at hrq
      simp at hrq
      omega
    obtain ⟨rs, rrest', hrrest⟩ : ∃ rs rrest', rrest = rs :: rrest' := by
      cases h : rrest with
      | nil => rw [h] at hlen2; simp at hlen2
      | cons a l => exact ⟨a, l, rfl⟩
    have hres : handleRemovalUnderflow minF parent (.sibling rightN) =
        some (⟨parent.down ++ [rf], parent.size + rf.size,
            parent.len + 1, parent.key⟩,
          some ⟨rrest, rightN.size - rf.size, rightN.len - 1, rs.key⟩,
          .update) := by
      rw [handleRemovalUnderflow, if_neg (by omega)]
      simp only [rebalanceRight, hrdown, hrrest, if_pos hgt]
      rfl
    refine ⟨rf, _, _, ?_, hres, ?_, rfl, ?_, rfl, rfl, rfl, ?_, rfl, ?_⟩
    · simp [hrdown]
    · rw [hrdown]
      simp
    · simp [hrdown]
    · rw [hrs, hrdown]
      simp only [List.map_cons, List.sum_cons]
      omega
    · intro c2 hc2
      rw [hrrest] at hc2
      simp only [List.head?_cons, Option.mem_def, Option.some_inj] at hc2
      rw [← hc2]
  · intro hle
    have hres : handleRemovalUnderflow minF parent (.sibling rightN) =
        some (⟨[], 0, 0, parent.key⟩,
          some ⟨parent.down ++ rightN.down, rightN.size + parent.size,
            rightN.len + parent.len, rightN.key⟩, .remove) := by
      rw [handleRemovalUnderflow, if_neg (by omega)]
      simp only [rebalanceRight, hrdown, if_neg (by omega : ¬ minF < rightN.len)]
      rw [← hrdown]
      rfl
    exact ⟨_, _, hres, rfl, rfl, rfl, rfl, rfl, rfl, rfl⟩
  · intro hgt
    have htake : leftN.down.take (leftN.len - 1) = linit := by
      rw [hldown, ← hlinit]
      exact List.take_left linit [llast]
    have hres : handleRemovalUnderflow minF parent (.parentLink leftN) =
        some (⟨llast :: parent.down, parent.size + llast.size,
            parent.len + 1, llast.key⟩,
          some ⟨leftN.down.take (leftN.len - 1), leftN.size - llast.size,
            leftN.len - 1, leftN.key⟩, .update) := by
      rw [handleRemovalUnderflow, if_neg (by omega)]
      simp only [rebalanceLeft, if_neg (by omega : ¬ leftN.len < 2), hget,
        if_pos hgt]
      rfl
    refine ⟨llast, _, _, hget, hres, ?_, rfl, rfl, rfl, rfl, ?_, rfl, rfl⟩
    · rw [htake, hldown]
      simp
    · rw [hls, hldown]
      simp only [List.map_append, List.sum_append, List.map_cons,
        List.sum_cons, List.map_nil, List.sum_nil]
      omega
  · intro hle
    have htake : leftN.down.take leftN.len = leftN.down := by
      rw [hlq]
      exact List.take_length leftN.down
    have hres : handleRemovalUnderflow minF parent (.parentLink leftN) =
        some (⟨[], 0, 0, parent.key⟩,
          some ⟨leftN.down ++ parent.down, leftN.size + parent.size,
            leftN.len + parent.len, leftN.key⟩, .remove) := by
      rw [handleRemovalUnderflow, if_neg (by omega)]
      simp only [rebalanceLeft, if_neg (by omega : ¬ leftN.len < 2), hget,
        if_neg (by omega : ¬ minF < leftN.len), htake]
      rfl
    exact ⟨_, _, hres, rfl, rfl, rfl, rfl, rfl, rfl, rfl⟩

/-- C2, witness: `min_fanout = 2`; a parent left with one child, a
right sibling of three children (redistribution applies). -/
theorem c2_remove_underflow_rebalance_witness :
    SNode.len ⟨[⟨5, some 1⟩], 5, 1, some 1⟩ < 2 ∧
      (2 : Nat) <
        SNode.len ⟨[⟨2, some 7⟩, ⟨3, some 8⟩, ⟨4, some 9⟩], 9, 3, some 7⟩ ∧
      (∃ c p' n',
        (SNode.down
            ⟨[⟨2, some 7⟩, ⟨3, some 8⟩, ⟨4, some 9⟩], 9, 3, some 7⟩).head? =
          some c ∧
        handleRemovalUnderflow 2 ⟨[⟨5, some 1⟩], 5, 1, some 1⟩
            (.sibling ⟨[⟨2, some 7⟩, ⟨3, some 8⟩, ⟨4, some 9⟩], 9, 3,
              some 7⟩) =
          some (p', some n', .update) ∧
        p'.down ++ n'.down =
          SNode.down ⟨[⟨5, some 1⟩], 5, 1, some 1⟩ ++
            SNode.down
              ⟨[⟨2, some 7⟩, ⟨3, some 8⟩, ⟨4, some 9⟩], 9, 3, some 7⟩ ∧
        p'.down = SNode.down ⟨[⟨5, some 1⟩], 5, 1, some 1⟩ ++ [c] ∧
        n'.down = (SNode.down
          ⟨[⟨2, some 7⟩, ⟨3, some 8⟩, ⟨4, some 9⟩], 9, 3, some 7⟩).tail ∧
        p'.len = SNode.len ⟨[⟨5, some 1⟩], 5, 1, some 1⟩ + 1 ∧
        n'.len = SNode.len
          ⟨[⟨2, some 7⟩, ⟨3, some 8⟩, ⟨4, some 9⟩], 9, 3, some 7⟩ - 1 ∧
        p'.size = SNode.size ⟨[⟨5, some 1⟩], 5, 1, some 1⟩ + c.size ∧
        n'.size + c.size = SNode.size
          ⟨[⟨2, some 7⟩, ⟨3, some 8⟩, ⟨4, some 9⟩], 9, 3, some 7⟩ ∧
        p'.key = SNode.key ⟨[⟨5, some 1⟩], 5, 1, some 1⟩ ∧
        (∀ c2 ∈ n'.down.head?, n'.key = c2.key)) :=
  ⟨by decide, by decide,
    (c2_remove_underflow_rebalance 2 ⟨[⟨5, some 1⟩], 5, 1, some 1⟩
        ⟨[⟨2, some 7⟩, ⟨3, some 8⟩, ⟨4, some 9⟩], 9, 3, some 7⟩
        ⟨[⟨1, some 4⟩, ⟨2, some 5⟩], 3, 2, some 4⟩
        (by decide) (by decide) (by decide) (by decide) (by decide)
        (by decide) (by decide) (by decide)).2.2.1 (by decide)⟩

/-! ## Claims C8 and C10: the destroy-safety latch -/

/-- Once the latch is `false`, no event brings it back. -/
theorem dsRun_false_absorbing (evs : List DsEvent) :
    evs.foldl dsStep false = false := by
  induction evs with
  | nil => rfl
  | cons e evs ih =>
    cases e <;> simpa [dsStep] using ih

/-- C8, counterexample.  The spec claims insertion *and removal alike*
guard the mutation window with the destroy-safety flag, so that any
mid-mutation unwind makes subsequent teardown skip deallocation.  But
`SkipList::remove` creates no `SetUnsafeOnDrop` guard (the only guard
sits in `insert_after_from`): after a removal that panics mid-mutation,
the latch still reads `true` and `destroy_node_list` deallocates
everything instead of skipping. -/
theorem c8_counterexample :
    dsRun [DsEvent.removePanic] = true ∧
      destroyNodeList (dsRun [DsEvent.removePanic]) [1, 2, 3] = [1, 2, 3] ∧
      ([1, 2, 3] : List Nat) ≠ [] := by
  decide

/-- C8, amended.  Only insertion guards its mutation window: an unwind
escaping mid-insertion trips the latch, and every subsequent
`destroy_node_list` — in teardown or removal — skips deallocating
internal nodes; a cleanly finishing insertion `mem::forget`s the guard
and leaves the latch unchanged; removal creates no guard, so neither a
clean nor a panicking removal writes the latch at all. -/
theorem c8_destroy_safety_guard (pre post : List DsEvent) (g : Bool)
    (ns : List Nat) :
    dsRun (pre ++ DsEvent.insertPanic :: post) = false ∧
      destroyNodeList false ns = [] ∧
      dsStep g .insertOk = g ∧
      dsStep g .removeOk = g ∧ dsStep g .removePanic = g := by
  refine ⟨?_, rfl, rfl, rfl, rfl⟩
  rw [dsRun, List.foldl_append, List.foldl_cons]
  exact dsRun_false_absorbing post

/-- C10.  The destroy-safety latch is a single boolean that starts
`true` and is only ever written `false` (`set_cannot_safely_destroy` is
its sole writer), never reset: once any insertion panics mid-mutation,
the latch reads `false` after every later operation on the same thread
— whatever list it concerns — and every later `destroy_node_list`
call, including tree drops and removals of other, unaffected lists,
skips deallocation of internal nodes. -/
theorem c10_latch_is_one_way (pre post : List DsEvent) (g : Bool)
    (e : DsEvent) (ns : List Nat) :
    dsRun [] = true ∧
      (dsStep g e = true → g = true) ∧
      dsRun (pre ++ DsEvent.insertPanic :: post) = false ∧
      destroyNodeList false ns = [] := by
  refine ⟨rfl, ?_, ?_, rfl⟩
  · cases e <;> simp [dsStep]
  · rw [dsRun, List.foldl_append, List.foldl_cons]
    exact dsRun_false_absorbing post
